import Mathlib

/-!
Verification development for the porkchop motif-screening core.

Byte strings (`&str` over ASCII / `&[u8]` in the Rust source) are modelled as
`List Nat`; machine integers (`usize`, `u64`, `u8`) are modelled as `Nat` with
explicit `% 2^64` where wrapping matters; `f64` values that feed comparisons
are modelled as exact rationals (`ℚ`) or reals (`ℝ`).  Fallible operations
return `Option`/`Except`.
-/

namespace Porkchop

/-- Motif category, from `kit.rs` (`enum SeqKind`). -/
inductive SeqKind where
  | AdapterTop
  | AdapterBottom
  | Primer
  | Barcode
  | Flank
deriving DecidableEq, Repr

/-- A motif record, from `kit.rs` (`struct SequenceRecord`); provenance metadata
is irrelevant to the verified claims and omitted.  The `sequence` field holds
the bytes of the Rust `&'static str`. -/
structure SequenceRecord where
  name : String
  kind : SeqKind
  sequence : List Nat
deriving DecidableEq, Repr

instance : Inhabited SequenceRecord := ⟨⟨"", SeqKind.AdapterTop, []⟩⟩

/-- A hit from `detect.rs` (`struct Match` in `kit.rs`).  The Rust field `end`
is a Lean keyword and is rendered `endPos`. -/
structure Match where
  kit : Option String
  element : String
  kind : SeqKind
  start : Nat
  endPos : Nat
  mismatches : Nat
deriving DecidableEq, Repr

/-- One row update of the Levenshtein DP in `edit_distance` (`detect.rs`):
given the previous row `prev` (indexed by prefixes of `b`), the current row
value `left` already computed to the left (`curr[j]`), and the remaining
characters of `b`, produce the entries `curr[j+1..]` of the current row. -/
def editRowGo (ca : Nat) : Nat → List Nat → List Nat → List Nat
  | _, _, [] => []
  | left, p0 :: p1 :: pt, cb :: bt =>
      let cost : Nat := if ca = cb then 0 else 1
      let v := min (left + 1) (min (p1 + 1) (p0 + cost))
      v :: editRowGo ca v (p1 :: pt) bt
  | _, _, _ :: _ => []

/-- The full current row of the DP: `curr[0] = first`, then `editRowGo`. -/
def editRow (ca : Nat) (b : List Nat) (prev : List Nat) (first : Nat) : List Nat :=
  first :: editRowGo ca first prev b

/-- Levenshtein edit distance between two byte strings, translated from
`edit_distance` in `detect.rs`: row-by-row DP with `prev` initialised to
`0..=b.len()` and `curr[0] = i + 1` on row `i`. -/
def edit_distance (a b : List Nat) : Nat :=
  let final :=
    a.foldl (fun (st : List Nat × Nat) ca => (editRow ca b st.1 (st.2 + 1), st.2 + 1))
      (List.range (b.length + 1), 0)
  final.1.getD b.length 0

/-- One loop iteration of `best_window_edit` (`detect.rs`): compare the window
starting at `i` against the current best and keep the strictly better one. -/
def bweStep (haystack needle : List Nat) (best : Option (Nat × Nat × Nat)) (i : Nat) :
    Option (Nat × Nat × Nat) :=
  let window := (haystack.drop i).take needle.length
  let d := edit_distance window needle
  match best with
  | none => some (i, i + needle.length, d)
  | some (s, e, bd) => if d < bd then some (i, i + needle.length, d) else some (s, e, bd)

/-- Slide `needle` across `haystack`, returning the best (lowest) edit distance
and span; translated from `best_window_edit` in `detect.rs`. -/
def best_window_edit (haystack needle : List Nat) : Option (Nat × Nat × Nat) :=
  if needle = [] ∨ haystack.length < needle.length then none
  else (List.range (haystack.length - needle.length + 1)).foldl (bweStep haystack needle) none

/-- ASCII upper-casing of one byte (`str::to_ascii_uppercase`, byte-wise). -/
def toAsciiUpper (b : Nat) : Nat := if 97 ≤ b ∧ b ≤ 122 then b - 32 else b

/-- Per-record step of the `find_matches` loop (`detect.rs`): push a match if
the best window distance is within `max_edits`. -/
def fmStep (q : List Nat) (max_edits : Nat) (kit_hint : Option String)
    (hits : List Match) (r : SequenceRecord) : List Match :=
  match best_window_edit q r.sequence with
  | some (s, e, d) =>
      if d ≤ max_edits then hits ++ [⟨kit_hint, r.name, r.kind, s, e, d⟩] else hits
  | none => hits

/-- Find matches to any of the provided records in `query`, allowing up to
`max_edits`; translated from `find_matches` in `detect.rs`. -/
def find_matches (query : List Nat) (records : List SequenceRecord) (max_edits : Nat)
    (kit_hint : Option String) : List Match :=
  records.foldl (fmStep (query.map toAsciiUpper) max_edits kit_hint) []

/-- Complement of one nucleotide byte, from the nested `comp` function of
`revcomp_bytes` in `benchmark.rs` (65,'A'; 97,'a'; 67,'C'; 99,'c'; 71,'G';
103,'g'; 84,'T'; 116,'t'; 85,'U'; 117,'u'; 78,'N'; 110,'n'; default 'N'). -/
def comp (b : Nat) : Nat :=
  if b = 65 ∨ b = 97 then 84
  else if b = 67 ∨ b = 99 then 71
  else if b = 71 ∨ b = 103 then 67
  else if b = 84 ∨ b = 116 then 65
  else if b = 85 ∨ b = 117 then 65
  else if b = 78 ∨ b = 110 then 78
  else 78

/-- Reverse complement, from `revcomp_bytes` in `benchmark.rs`: iterate the
input in reverse, pushing the complement of each byte. -/
def revcomp_bytes (seq : List Nat) : List Nat :=
  seq.reverse.map comp

/-- Prebuilt pattern-index state, from `struct Prebuilt` in `benchmark.rs`.
The `aho_corasick` automaton of the source is an external crate; per the spec
(section 4.1) it performs exact multi-pattern search over `pats`, so the model
keeps the pattern list itself and scans it directly (see `acCandidates`). -/
structure Prebuilt where
  records : List SequenceRecord
  pats : List (List Nat)
  pat2rec : List Nat
  pat_is_rc : List Bool
deriving Repr

/-- The registration loop of `prebuild_for` (`benchmark.rs`): for the record at
index `i`, push the forward sequence (rec `i`, strand `false`) then its reverse
complement (rec `i`, strand `true`), and continue with index `i + 1`. -/
def prebuildGo : Nat → List SequenceRecord → List (List Nat) × List Nat × List Bool
  | _, [] => ([], [], [])
  | i, r :: t =>
      let rest := prebuildGo (i + 1) t
      (r.sequence :: revcomp_bytes r.sequence :: rest.1,
       i :: i :: rest.2.1,
       false :: true :: rest.2.2)

/-- Build the pattern index across all motifs, from `prebuild_for` in
`benchmark.rs`. -/
def prebuild_for (records : List SequenceRecord) : Prebuilt :=
  let built := prebuildGo 0 records
  ⟨records, built.1, built.2.1, built.2.2⟩

/-- A single top-hit label, from `struct LabelHit` in `benchmark.rs`
(`score` is negative edit distance, larger is better). -/
structure LabelHit where
  name : String
  kind : SeqKind
  score : Int
  pos : Option Nat
deriving DecidableEq, Repr

/-- One column step of the semiglobal (pattern-global, text-start-free) edit
DP: this is `editRow` seeded with `curr[0] = 0`, which is the recurrence the
bit-parallel Myers matcher of the external `bio` crate implements. -/
def semiCol (c : Nat) (pat : List Nat) (col : List Nat) : List Nat :=
  editRow c pat col 0

/-- Scan loop for `myersFind`: consume text bytes one at a time, tracking the
semiglobal DP column; report the first end position (1-based, ascending) whose
distance is within `k`, together with that distance. -/
def myersFindGo (pat : List Nat) (k : Nat) : List Nat → List Nat → Nat → Option (Nat × Nat)
  | _, [], _ => none
  | col, c :: rest, j =>
      let col' := semiCol c pat col
      let d := col'.getD pat.length 0
      if d ≤ k then some (j, d) else myersFindGo pat k col' rest (j + 1)

/-- Modelled from the spec: the bounded edit-distance matcher (`Myers` from the
external `bio` crate, used via `find_all(seq, k).next()` in `benchmark.rs`)
"returns the minimum Levenshtein-style edit distance ≤ threshold between the
motif and any substring of the read"; `find_all` reports matches in ascending
end-position order, so `.next()` is the first end position within threshold. -/
def myersFind (pat text : List Nat) (k : Nat) : Option (Nat × Nat) :=
  myersFindGo pat k (List.range (pat.length + 1)) text 1

/-- Keep the strictly better hit (`hit.score > best.score`), from the update
pattern `best.as_ref().map(|b| hit.score > b.score).unwrap_or(true)` in
`benchmark.rs`. -/
def betterHit (best : Option LabelHit) (hit : LabelHit) : Option LabelHit :=
  match best with
  | none => some hit
  | some b => if hit.score > b.score then some hit else some b

/-- Pure Myers classifier, from `myers_best` in `benchmark.rs`: for each record
try the forward motif; only if it yields nothing, try the reverse complement;
keep the best (largest) score. -/
def myers_best (seq : List Nat) (records : List SequenceRecord) (max_dist : Nat) :
    Option LabelHit :=
  records.foldl
    (fun best r =>
      match myersFind r.sequence seq max_dist with
      | some (e, dist) => betterHit best ⟨r.name, r.kind, -(dist : Int), some e⟩
      | none =>
          match myersFind (revcomp_bytes r.sequence) seq max_dist with
          | some (e, dist) => betterHit best ⟨r.name, r.kind, -(dist : Int), some e⟩
          | none => best)
    none

/-- End position (1-based, smallest) of an exact occurrence of `pat` in `seq`,
if any: the position at which an exact multi-pattern scan first reports `pat`. -/
def firstEnd (pat seq : List Nat) : Option Nat :=
  (List.range (seq.length + 1)).findSome?
    (fun e =>
      if pat.length ≤ e ∧ ((seq.take e).drop (e - pat.length) = pat ∧ pat ≠ [])
      then some e else none)

/-- Modelled from the spec: the exact prefilter scan of `ac.find_iter(seq)` in
`ac_myers_best` (`benchmark.rs`), an external `aho_corasick` automaton; per the
spec (section 4.1) it reports exact matches "deterministic order = left-to-right
position of match end, ties broken by ascending pattern id".  Combined with the
`seen` de-duplication of the source loop this yields each matching pattern id
once, ordered by first match end then id. -/
def acCandidates (pre : Prebuilt) (seq : List Nat) : List Nat :=
  let withEnd := pre.pats.enum.filterMap
    (fun pp => (firstEnd pp.2 seq).map (fun e => (e, pp.1)))
  (withEnd.insertionSort
    (fun a b => a.1 < b.1 ∨ (a.1 = b.1 ∧ a.2 ≤ b.2))).map (fun x => x.2)

/-- Aho–Corasick prefilter then Myers per candidate, from `ac_myers_best` in
`benchmark.rs`.  Note: when the prefilter yields no candidate the fold returns
`none`; there is no fallback to the full approximate search. -/
def ac_myers_best (seq : List Nat) (pre : Prebuilt) (max_dist : Nat) : Option LabelHit :=
  (acCandidates pre seq).foldl
    (fun best pid =>
      let ridx := pre.pat2rec.getD pid 0
      let r := pre.records.getD ridx default
      let patBytes := if pre.pat_is_rc.getD pid false
        then revcomp_bytes r.sequence else r.sequence
      match myersFind patBytes seq max_dist with
      | some (e, dist) => betterHit best ⟨r.name, r.kind, -(dist : Int), some e⟩
      | none => best)
    none

/-- A sequencing read, from `struct NARead` in `seqio.rs`.  The `id` field
holds the bytes of the Rust `String` (the hash in `run_screen` iterates
`id.as_bytes()`). -/
structure NARead where
  id : List Nat
  seq : List Nat
  qual : Option (List Nat)
deriving DecidableEq, Repr

/-- The record loop shared by `fastq_for_each_parallel` and
`bam_for_each_parallel` in `seqio.rs`: each successfully decoded record is
handed to the callback (collected here, in order) and counted; on the first
decode error the loop sets `first_err` and breaks, and the function then
returns that error.  The scoped spawn guarantees delivered callbacks finish,
so the pair (result, delivered records) is the observable outcome. -/
def forEachGo : List (Except Unit NARead) → Nat → Except Unit Nat × List NARead
  | [], n => (Except.ok n, [])
  | Except.ok r :: t, n =>
      let rest := forEachGo t (n + 1)
      (rest.1, r :: rest.2)
  | Except.error e :: _, _ => (Except.error e, [])

/-- Streaming reader over one file's decode results, from
`fastq_for_each_parallel` in `seqio.rs` (the `bam` variant has the identical
loop structure). -/
def fastq_for_each (input : List (Except Unit NARead)) : Except Unit Nat × List NARead :=
  forEachGo input 0

/-- Records of a decode-result stream up to (excluding) the first error. -/
def okUntilErr (input : List (Except Unit NARead)) : List NARead :=
  (input.takeWhile (fun x => match x with | Except.ok _ => true | _ => false)).filterMap
    (fun x => match x with | Except.ok r => some r | _ => none)

/-- FNV-1-style hash of a read id, from the producer closure in `run_screen`
(`screen.rs`): start from `0xcbf29ce484222325`, and for each byte multiply by
`0x100000001b3` (wrapping, i.e. `% 2^64`) then XOR with the byte. -/
def sample_hash (id : List Nat) : Nat :=
  id.foldl (fun h b => Nat.xor ((h * 0x100000001b3) % 2 ^ 64) (b % 256)) 0xcbf29ce484222325

/-- Bernoulli sampling decision, from `run_screen` (`screen.rs`): the fraction
is clamped to `[0, 1]`; `p ≥ 1` always keeps; otherwise keep iff
`hash / u64::MAX < p`.  The `f64` arithmetic of the source is modelled by
exact rationals. -/
def sample_decision (fraction : ℚ) (id : List Nat) : Bool :=
  let p := max 0 (min fraction 1)
  if 1 ≤ p then true
  else decide ((sample_hash id : ℚ) / (2 ^ 64 - 1) < p)

/-- Per-read keep/skip decision of one producer in `run_screen`, as a function
of the whole run configuration: the worker-pool size (`threads`) and the
read's arrival index in its file are in scope at the decision point but the
computed decision uses only the clamped fraction and the read id. -/
def producer_decision (threads : Option Nat) (arrivalIndex : Nat) (fraction : ℚ)
    (read : NARead) : Bool :=
  let _ := threads
  let _ := arrivalIndex
  sample_decision fraction read.id

/-- One enumerated motif hit of a read, as consumed by the aggregation loop of
`run_screen` (`screen.rs`): motif name, category, strand flag (`is_rc`), and
match position. -/
structure Hit where
  name : String
  kind : SeqKind
  is_rc : Bool
  pos : Nat
deriving DecidableEq, Repr

/-- Shared mutable tally state of `run_screen` (`screen.rs`): the three
lock-guarded maps (per-(name,kind) unit tally, per-strand tallies, composite
context tally) and the scalar counters touched by the aggregation loop. -/
structure TallyState where
  screened : Nat
  unclassified : Nat
  reads_with_hits : Nat
  unit_tally : String × SeqKind → Nat
  fwd_tally : String × SeqKind → Nat
  rev_tally : String × SeqKind → Nat
  combo_tally : String → Nat

/-- Increment the count stored under `key`. -/
def bump {α : Type} [DecidableEq α] (m : α → Nat) (key : α) : α → Nat :=
  fun k => if k = key then m k + 1 else m k

/-- First-occurrence de-duplication of hit labels, keyed by motif name and
keeping each name's first position, from the `seen`/`labels_pos` loop of
`run_screen`. -/
def firstOccLabels (seen : List String) : List Hit → List (Nat × String)
  | [] => []
  | h :: t =>
      if h.name ∈ seen then firstOccLabels seen t
      else (h.pos, h.name) :: firstOccLabels (h.name :: seen) t

/-- Composite context key of a read's hit list, from `run_screen`: de-duplicate
names by first occurrence, sort by position (`sort_by_key` is stable; so is
insertion sort), then join with the separator `" + "`. -/
def context_key (hits : List Hit) : String :=
  let labels := (firstOccLabels [] hits).insertionSort (fun a b => a.1 ≤ b.1)
  String.intercalate " + " (labels.map (fun x => x.2))

/-- Strand-tally update loop of `run_screen`: one pass over the hits, bumping
the reverse map for `is_rc` hits and the forward map otherwise. -/
def strandFold (hits : List Hit) (fwd rev : String × SeqKind → Nat) :
    (String × SeqKind → Nat) × (String × SeqKind → Nat) :=
  hits.foldl
    (fun p h => if h.is_rc then (p.1, bump p.2 (h.name, h.kind)) else (bump p.1 (h.name, h.kind), p.2))
    (fwd, rev)

/-- Aggregation step for one processed read, from the worker loop of
`run_screen` (`screen.rs`, lines 305–349): empty hit list increments only
`screened` and `unclassified`; otherwise increment `reads_with_hits`, bump the
unit tally once per distinct `(name, kind)` (the `uniq` hash set is modelled
as a de-duplicated key list), bump a strand tally per hit, bump the composite
context counter, and increment `screened`. -/
def record_read (st : TallyState) (hits : List Hit) : TallyState :=
  if hits = [] then
    { st with screened := st.screened + 1, unclassified := st.unclassified + 1 }
  else
    let uniq := (hits.map (fun h => (h.name, h.kind))).dedup
    let unit' := uniq.foldl (fun m k => bump m k) st.unit_tally
    let strands := strandFold hits st.fwd_tally st.rev_tally
    { st with
      reads_with_hits := st.reads_with_hits + 1,
      unit_tally := unit',
      fwd_tally := strands.1,
      rev_tally := strands.2,
      combo_tally := bump st.combo_tally (context_key hits),
      screened := st.screened + 1 }

/-- Category weight, from `weight_of` in `screen.rs`. -/
noncomputable def weight_of (kind : SeqKind) : ℝ :=
  match kind with
  | SeqKind.AdapterTop => 3
  | SeqKind.AdapterBottom => 3
  | SeqKind.Primer => 2
  | SeqKind.Barcode => 1
  | SeqKind.Flank => 1 / 2

/-- Token test of `canonical_barcode` (`screen.rs`) for length-4 tokens:
two-letter prefix in `BP/BC/RB/16/RL` followed by digits. -/
def canonTok4 (tok : String) : Bool :=
  let pre := (tok.toList.take 2).asString
  let num := tok.toList.drop 2
  (pre = "BP" ∨ pre = "BC" ∨ pre = "RB" ∨ pre = "16" ∨ pre = "RL") ∧ num.all Char.isDigit

/-- Token loop of `canonical_barcode` (`screen.rs`). -/
def canonicalBarcodeGo : List String → Option String
  | [] => none
  | tok :: rest =>
      if tok.length = 4 then
        if canonTok4 tok then some ("BC" ++ (tok.toList.drop 2).asString)
        else canonicalBarcodeGo rest
      else if tok.startsWith "BC" ∧ (tok.toList.drop 2).all Char.isDigit then some tok
      else canonicalBarcodeGo rest

/-- Map barcode aliases like `BP05/RB05/16S05/RLB05` to a canonical `BC` form,
from `canonical_barcode` in `screen.rs`. -/
def canonical_barcode (name : String) : Option String :=
  canonicalBarcodeGo (name.splitOn "/")

/-- Kit signature data consumed by `infer_kits_df` (`screen.rs`); the registry
fields not read by the scorer (description, chemistry, provenance) are
omitted. -/
structure Kit where
  id : String
  adapters_and_primers : List SequenceRecord
  barcodes : List SequenceRecord

/-- Signature key set of one kit, from the `sig` construction in
`infer_kits_df`: every adapter/primer `(name, kind)`, every barcode under its
canonicalised name with kind `Barcode`, and flank-kind barcode rows also under
their own name with kind `Flank`.  The Rust `HashSet` is modelled as a list
used only through membership. -/
def buildSig (k : Kit) : List (String × SeqKind) :=
  k.adapters_and_primers.map (fun r => (r.name, r.kind)) ++
    k.barcodes.flatMap
      (fun r =>
        ((canonical_barcode r.name).getD r.name, SeqKind.Barcode) ::
          (if r.kind = SeqKind.Flank then [(r.name, SeqKind.Flank)] else []))

/-- Per-kit score over a tally snapshot, from the scoring loop of
`infer_kits_df`: for each tally entry, canonicalise barcode names, and if the
key is in the kit's signature add `weight(kind) × count`.  The tally snapshot
(a `HashMap` in the source) is modelled as an association list; the sum is
order-independent. -/
noncomputable def kit_score (k : Kit) (tally : List ((String × SeqKind) × Nat)) : ℝ :=
  tally.foldl
    (fun acc entry =>
      let nm := entry.1.1
      let kind := entry.1.2
      let key := if kind = SeqKind.Barcode
        then ((canonical_barcode nm).getD nm, kind) else (nm, kind)
      if key ∈ buildSig k then acc + weight_of kind * (entry.2 : ℝ) else acc)
    0

/-- Softmax conversion of the score vector, from `infer_kits_df` (`screen.rs`):
subtract the running maximum, exponentiate, normalise by
`max (Σ exps) 1e-12`.  The source folds `f64::max` from `NEG_INFINITY`; for a
nonempty list this equals folding from the head, which is how the model seeds
the fold (ℝ has no `-∞`). -/
noncomputable def softmax_probs (scores : List ℝ) : List ℝ :=
  let maxS := scores.foldl max (scores.headD 0)
  let exps := scores.map (fun s => Real.exp (s - maxS))
  let z := max exps.sum (1 / 10 ^ 12)
  exps.map (fun e => e / z)

/-- Kit probabilities over a tally snapshot: the score loop followed by the
softmax, from `infer_kits_df` (`screen.rs`). -/
noncomputable def infer_kit_probs (kits : List Kit) (tally : List ((String × SeqKind) × Nat)) :
    List ℝ :=
  softmax_probs (kits.map (fun k => kit_score k tally))

/-- Sum of the reported probabilities restricted to kits with non-zero score —
the quantity the claim asserts equals 1. -/
noncomputable def nonzeroScoreProbSum (kits : List Kit)
    (tally : List ((String × SeqKind) × Nat)) : ℝ :=
  (((kits.map (fun k => kit_score k tally)).zip (infer_kit_probs kits tally)).filter
      (fun sp => sp.1 ≠ 0)).foldl (fun acc sp => acc + sp.2) 0

/-! ## Theorems -/

/-- C1: the spec requires that the two-stage strategy is never worse than the
approximate-only strategy and falls back to full approximate search when the
exact prefilter yields no candidate.  The code has no such fallback: on the
read `AGGT` with the single motif `ACGT` (distance 1) and threshold 1,
`myers_best` returns a distance-1 hit while `ac_myers_best` returns no hit at
all — the prefilter finds no exact occurrence and the candidate fold starts
and ends at `none`. -/
theorem C1_two_stage_missing_fallback :
    myers_best [65, 71, 71, 84] [⟨"ADPT", SeqKind.AdapterTop, [65, 67, 71, 84]⟩] 1 =
      some ⟨"ADPT", SeqKind.AdapterTop, -1, some 4⟩ ∧
    ac_myers_best [65, 71, 71, 84]
      (prebuild_for [⟨"ADPT", SeqKind.AdapterTop, [65, 67, 71, 84]⟩]) 1 = none := by
  constructor <;> rfl

/-- Reader loop invariant: the delivered records are exactly the records
before the first decode error; the result is the running count plus the
remaining record count when no error occurs, and the first error otherwise. -/
theorem forEachGo_spec (input : List (Except Unit NARead)) :
    ∀ n : Nat,
      (forEachGo input n).2 = okUntilErr input ∧
      ((∀ x ∈ input, ∃ r, x = Except.ok r) →
        (forEachGo input n).1 = Except.ok (n + input.length)) ∧
      ((∃ x ∈ input, x = Except.error ()) → (forEachGo input n).1 = Except.error ()) := by
  induction input with
  | nil =>
      intro n
      refine ⟨rfl, fun _ => by simp [forEachGo], fun h => by simp at h⟩
  | cons x t ih =>
      intro n
      match x with
      | Except.ok r =>
          refine ⟨?_, ?_, ?_⟩
          · show r :: (forEachGo t (n + 1)).2 = okUntilErr (Except.ok r :: t)
            rw [(ih (n + 1)).1]
            simp [okUntilErr, List.takeWhile]
          · intro hall
            show (forEachGo t (n + 1)).1 = Except.ok (n + (Except.ok r :: t).length)
            rw [(ih (n + 1)).2.1 (fun y hy => hall y (List.mem_cons_of_mem _ hy))]
            simp only [List.length_cons]
            congr 1
            omega
          · intro hex
            obtain ⟨y, hy, hyerr⟩ := hex
            rcases List.mem_cons.mp hy with h | h
            · rw [h] at hyerr; exact absurd hyerr (by simp)
            · exact (ih (n + 1)).2.2 ⟨y, h, hyerr⟩
      | Except.error e =>
          refine ⟨?_, ?_, ?_⟩
          · show ([] : List NARead) = okUntilErr (Except.error e :: t)
            simp [okUntilErr, List.takeWhile]
          · intro hall
            obtain ⟨r, hr⟩ := hall (Except.error e) (List.mem_cons_self _ _)
            exact absurd hr (by simp)
          · intro _
            show Except.error e = Except.error ()
            rfl

/-- C2 (amended): the streaming reader delivers every record strictly before
the first decode error, in order; a file with no decode error delivers all
records and returns their count; a file with a decode error stops there and
returns that error (it does not skip the offending record and continue). -/
theorem C2_reader_stops_at_first_error (input : List (Except Unit NARead)) :
    (fastq_for_each input).2 = okUntilErr input ∧
    ((∀ x ∈ input, ∃ r, x = Except.ok r) →
      (fastq_for_each input).1 = Except.ok input.length) ∧
    ((∃ x ∈ input, x = Except.error ()) → (fastq_for_each input).1 = Except.error ()) := by
  have H := forEachGo_spec input 0
  exact ⟨H.1, fun h => by simpa using H.2.1 h, H.2.2⟩

/-- C2 witness: a stream whose second record fails to decode makes the whole
run of that file fail. -/
theorem C2_reader_witness :
    (fastq_for_each [Except.ok ⟨[114, 49], [65], none⟩, Except.error (),
      Except.ok ⟨[114, 50], [67], none⟩]).1 = Except.error () := by
  exact (C2_reader_stops_at_first_error _).2.2 ⟨Except.error (), by simp, rfl⟩

/-- C2 counterexample: with records `r1`, corrupt, `r2`, the code delivers
only `r1` and fails with the decode error — the claimed behaviour (skip the
corrupt record, deliver `r2`, keep the run alive) does not happen. -/
theorem C2_counterexample :
    fastq_for_each [Except.ok ⟨[114, 49], [65], none⟩, Except.error (),
        Except.ok ⟨[114, 50], [67], none⟩] =
      (Except.error (), [⟨[114, 49], [65], none⟩]) := by
  rfl

/-- Per-record step of `find_matches` preserves the mismatch bound: it only
appends matches that passed the `d ≤ max_edits` guard. -/
theorem fmStep_mismatches_le (q : List Nat) (k : Nat) (hint : Option String)
    (acc : List Match) (r : SequenceRecord) (hacc : ∀ x ∈ acc, x.mismatches ≤ k) :
    ∀ x ∈ fmStep q k hint acc r, x.mismatches ≤ k := by
  intro x hx
  unfold fmStep at hx
  rcases hbwe : best_window_edit q r.sequence with _ | ⟨s, e, d⟩ <;> rw [hbwe] at hx
  · exact hacc x hx
  · have hx' : x ∈ (if d ≤ k then
        acc ++ [⟨hint, r.name, r.kind, s, e, d⟩] else acc) := hx
    by_cases hd : d ≤ k
    · rw [if_pos hd] at hx'
      rcases List.mem_append.mp hx' with h | h
      · exact hacc x h
      · simp only [List.mem_singleton] at h
        subst h; exact hd
    · rw [if_neg hd] at hx'; exact hacc x hx'

/-- Fold invariant for `find_matches`: every match in the accumulator keeps
`mismatches ≤ max_edits`. -/
theorem fmFold_mismatches_le (q : List Nat) (k : Nat) (hint : Option String) :
    ∀ (records : List SequenceRecord) (acc : List Match),
      (∀ x ∈ acc, x.mismatches ≤ k) →
      ∀ x ∈ records.foldl (fmStep q k hint) acc, x.mismatches ≤ k := by
  intro records
  induction records with
  | nil => intro acc hacc x hx; exact hacc x hx
  | cons r t ih =>
      intro acc hacc x hx
      rw [List.foldl_cons] at hx
      exact ih _ (fmStep_mismatches_le q k hint acc r hacc) x hx

/-- C4: every hit returned by `find_matches` has `mismatches ≤ max_edits`;
the matcher never returns a hit whose distance exceeds the threshold. -/
theorem C4_hits_within_threshold (query : List Nat) (records : List SequenceRecord)
    (max_edits : Nat) (kit_hint : Option String) :
    ∀ m ∈ find_matches query records max_edits kit_hint, m.mismatches ≤ max_edits := by
  intro m hm
  exact fmFold_mismatches_le (query.map toAsciiUpper) max_edits kit_hint records []
    (by intro x hx; exact absurd hx (List.not_mem_nil x)) m hm

/-- C4 witness: the exact query `acGT` against motif `ACGT` at threshold 0
yields a concrete hit, and the theorem bounds its mismatch count. -/
theorem C4_hits_witness :
    (⟨none, "ADPT", SeqKind.AdapterTop, 0, 4, 0⟩ : Match) ∈
      find_matches [97, 99, 71, 84] [⟨"ADPT", SeqKind.AdapterTop, [65, 67, 71, 84]⟩] 0 none ∧
    (⟨none, "ADPT", SeqKind.AdapterTop, 0, 4, 0⟩ : Match).mismatches ≤ 0 := by
  have hm : (⟨none, "ADPT", SeqKind.AdapterTop, 0, 4, 0⟩ : Match) ∈
      find_matches [97, 99, 71, 84] [⟨"ADPT", SeqKind.AdapterTop, [65, 67, 71, 84]⟩] 0 none := by
    decide
  exact ⟨hm, C4_hits_within_threshold _ _ _ _ _ hm⟩

/-- C5: the Bernoulli sampling decision is a pure function of the read id and
the keep-fraction alone — worker-pool size and arrival order do not enter it —
and a fraction ≥ 1 always keeps the read. -/
theorem C5_sampling_deterministic (threads₁ threads₂ : Option Nat) (i₁ i₂ : Nat)
    (fraction : ℚ) (r₁ r₂ : NARead) (hid : r₁.id = r₂.id) :
    producer_decision threads₁ i₁ fraction r₁ = producer_decision threads₂ i₂ fraction r₂ ∧
    (1 ≤ fraction → producer_decision threads₁ i₁ fraction r₁ = true) := by
  constructor
  · simp [producer_decision, hid]
  · intro h1
    have hmin : min fraction 1 = 1 := min_eq_right h1
    simp [producer_decision, sample_decision, hmin]

/-- C5 witness: the same read id gets the same decision in a 1-worker run and
an 8-worker run at different arrival positions. -/
theorem C5_sampling_witness :
    producer_decision (some 1) 0 (1 / 2) ⟨[114, 49], [65], none⟩ =
      producer_decision (some 8) 5 (1 / 2) ⟨[114, 49], [65], none⟩ := by
  exact (C5_sampling_deterministic (some 1) (some 8) 0 5 (1 / 2) _ _ rfl).1

/-- C10 (amended): `revcomp_bytes` preserves length and is an involution on
strings over the uppercase alphabet `{A, C, G, T, N}`; a byte outside the
case-insensitive alphabet `{A, C, G, T, U, N, a, c, g, t, u, n}` is
complemented to `'N'`. -/
theorem C10_revcomp_involution (s : List Nat) :
    (revcomp_bytes s).length = s.length ∧
    ((∀ b ∈ s, b = 65 ∨ b = 67 ∨ b = 71 ∨ b = 84 ∨ b = 78) →
      revcomp_bytes (revcomp_bytes s) = s) ∧
    (∀ b : Nat, b ∉ ([65, 97, 67, 99, 71, 103, 84, 116, 85, 117, 78, 110] : List Nat) →
      comp b = 78) := by
  refine ⟨by simp [revcomp_bytes], ?_, ?_⟩
  · intro halpha
    have hmm : revcomp_bytes (revcomp_bytes s) = s.map (fun b => comp (comp b)) := by
      simp [revcomp_bytes, List.map_reverse, List.map_map, Function.comp]
    rw [hmm]
    have : ∀ b ∈ s, comp (comp b) = b := by
      intro b hb
      rcases halpha b hb with h | h | h | h | h <;> subst h <;> decide
    calc s.map (fun b => comp (comp b)) = s.map id := List.map_congr_left this
      _ = s := List.map_id s
  · intro b hb
    simp only [List.mem_cons, List.not_mem_nil, or_false, not_or] at hb
    obtain ⟨n1, n2, n3, n4, n5, n6, n7, n8, n9, n10, n11, n12⟩ := hb
    simp [comp, n1, n2, n3, n4, n5, n6, n7, n8, n9, n10, n11, n12]

/-- C10 witness: the involution instantiated on `ACGTN`. -/
theorem C10_revcomp_witness :
    revcomp_bytes (revcomp_bytes [65, 67, 71, 84, 78]) = [65, 67, 71, 84, 78] := by
  exact (C10_revcomp_involution [65, 67, 71, 84, 78]).2.1 (by decide)

/-- C10 counterexample: the lowercase byte `'a'` (97) lies outside the
uppercase alphabet, yet `revcomp_bytes` maps it to `'T'` (84), not to `'N'`
(78) and not to `'A'` (65) as the claim's exception clause would require. -/
theorem C10_counterexample :
    revcomp_bytes [97] = [84] ∧ (84 : Nat) ≠ 78 ∧ (84 : Nat) ≠ 65 := by
  decide

/-- Case analysis of one `best_window_edit` loop step: starting from an empty
best it installs window `i`; otherwise it replaces the best exactly when
window `i` is strictly better. -/
theorem bweStep_cases (h n : List Nat) (acc : Option (Nat × Nat × Nat)) (i : Nat) :
    (acc = none ∧ bweStep h n acc i =
        some (i, i + n.length, edit_distance ((h.drop i).take n.length) n)) ∨
    ∃ s0 e0 d0, acc = some (s0, e0, d0) ∧
      ((edit_distance ((h.drop i).take n.length) n < d0 ∧
        bweStep h n acc i =
          some (i, i + n.length, edit_distance ((h.drop i).take n.length) n)) ∨
       (d0 ≤ edit_distance ((h.drop i).take n.length) n ∧
        bweStep h n acc i = some (s0, e0, d0))) := by
  rcases acc with _ | ⟨⟨s0, e0, d0⟩⟩
  · left; exact ⟨rfl, rfl⟩
  · right
    refine ⟨s0, e0, d0, rfl, ?_⟩
    by_cases hd : edit_distance ((h.drop i).take n.length) n < d0
    · left; exact ⟨hd, by simp [bweStep, hd]⟩
    · right; exact ⟨Nat.le_of_not_lt hd, by simp [bweStep, hd]⟩

/-- The `best_window_edit` loop step never discards the option. -/
theorem bweStep_ne_none (h n : List Nat) (acc : Option (Nat × Nat × Nat)) (i : Nat) :
    bweStep h n acc i ≠ none := by
  rcases bweStep_cases h n acc i with ⟨_, heq⟩ | ⟨s0, e0, d0, _, ⟨_, heq⟩ | ⟨_, heq⟩⟩ <;>
    simp [heq]

/-- The `best_window_edit` fold yields a window once any index is processed
(or the accumulator already holds one). -/
theorem bweFold_ne_none (h n : List Nat) :
    ∀ (l : List Nat) (acc : Option (Nat × Nat × Nat)),
      l ≠ [] ∨ acc ≠ none → l.foldl (bweStep h n) acc ≠ none := by
  intro l
  induction l with
  | nil =>
      intro acc hd
      rcases hd with hd | hd
      · exact absurd rfl hd
      · simpa using hd
  | cons i t ih =>
      intro acc _
      rw [List.foldl_cons]
      exact ih _ (Or.inr (bweStep_ne_none h n acc i))

/-- Main invariant of the `best_window_edit` fold: any produced triple is a
well-formed window of the haystack carrying its own edit distance, and that
distance is a lower bound both for the incoming accumulator and for every
window index processed by the fold. -/
theorem bweFold_spec (h n : List Nat) :
    ∀ (l : List Nat) (acc : Option (Nat × Nat × Nat)),
      (∀ i ∈ l, i + n.length ≤ h.length) →
      (∀ s e d, acc = some (s, e, d) →
        e = s + n.length ∧ s + n.length ≤ h.length ∧
        d = edit_distance ((h.drop s).take n.length) n) →
      ∀ s e d, l.foldl (bweStep h n) acc = some (s, e, d) →
        (e = s + n.length ∧ s + n.length ≤ h.length ∧
         d = edit_distance ((h.drop s).take n.length) n) ∧
        (∀ s' e' d', acc = some (s', e', d') → d ≤ d') ∧
        (∀ i ∈ l, d ≤ edit_distance ((h.drop i).take n.length) n) := by
  intro l
  induction l with
  | nil =>
      intro acc _ hacc s e d hres
      simp only [List.foldl_nil] at hres
      refine ⟨hacc s e d hres, ?_, by simp⟩
      intro s' e' d' hacc'
      rw [hres] at hacc'
      injection hacc' with hp
      injection hp with _ hp2
      injection hp2 with _ hd
      omega
  | cons i t ih =>
      intro acc hl hacc s e d hres
      rw [List.foldl_cons] at hres
      have hhead : i + n.length ≤ h.length := hl i (List.mem_cons_self _ _)
      have htail : ∀ j ∈ t, j + n.length ≤ h.length :=
        fun j hj => hl j (List.mem_cons_of_mem _ hj)
      rcases bweStep_cases h n acc i with ⟨haccn, heq⟩ |
        ⟨s0, e0, d0, hacc0, ⟨hlt, heq⟩ | ⟨hge, heq⟩⟩
      · -- accumulator was empty; the step installs window i
        have hacc' : ∀ s' e' d', bweStep h n acc i = some (s', e', d') →
            e' = s' + n.length ∧ s' + n.length ≤ h.length ∧
            d' = edit_distance ((h.drop s').take n.length) n := by
          intro s' e' d' hx
          rw [heq] at hx
          injection hx with hp
          injection hp with h1 hp2
          injection hp2 with h2 h3
          subst h1; subst h2; subst h3
          exact ⟨rfl, hhead, rfl⟩
        have H := ih (bweStep h n acc i) htail hacc' s e d hres
        refine ⟨H.1, ?_, ?_⟩
        · intro s' e' d' hx
          rw [haccn] at hx
          exact absurd hx (by simp)
        · intro j hj
          rcases List.mem_cons.mp hj with hj | hj
          · subst hj
            exact H.2.1 j (j + n.length)
              (edit_distance ((h.drop j).take n.length) n) heq
          · exact H.2.2 j hj
      · -- window i strictly improves the stored best
        have hacc' : ∀ s' e' d', bweStep h n acc i = some (s', e', d') →
            e' = s' + n.length ∧ s' + n.length ≤ h.length ∧
            d' = edit_distance ((h.drop s').take n.length) n := by
          intro s' e' d' hx
          rw [heq] at hx
          injection hx with hp
          injection hp with h1 hp2
          injection hp2 with h2 h3
          subst h1; subst h2; subst h3
          exact ⟨rfl, hhead, rfl⟩
        have H := ih (bweStep h n acc i) htail hacc' s e d hres
        have hdle : d ≤ edit_distance ((h.drop i).take n.length) n :=
          H.2.1 i (i + n.length) (edit_distance ((h.drop i).take n.length) n) heq
        refine ⟨H.1, ?_, ?_⟩
        · intro s' e' d' hx
          rw [hacc0] at hx
          injection hx with hp
          injection hp with h1 hp2
          injection hp2 with h2 h3
          subst h1; subst h2; subst h3
          omega
        · intro j hj
          rcases List.mem_cons.mp hj with hj | hj
          · subst hj; exact hdle
          · exact H.2.2 j hj
      · -- the stored best is kept
        have hacc' : ∀ s' e' d', bweStep h n acc i = some (s', e', d') →
            e' = s' + n.length ∧ s' + n.length ≤ h.length ∧
            d' = edit_distance ((h.drop s').take n.length) n := by
          intro s' e' d' hx
          rw [heq] at hx
          injection hx with hp
          injection hp with h1 hp2
          injection hp2 with h2 h3
          subst h1; subst h2; subst h3
          exact hacc s0 e0 d0 hacc0
        have H := ih (bweStep h n acc i) htail hacc' s e d hres
        have hd0le : d ≤ d0 := H.2.1 s0 e0 d0 heq
        refine ⟨H.1, ?_, ?_⟩
        · intro s' e' d' hx
          rw [hacc0] at hx
          injection hx with hp
          injection hp with h1 hp2
          injection hp2 with h2 h3
          omega
        · intro j hj
          rcases List.mem_cons.mp hj with hj | hj
          · subst hj; omega
          · exact H.2.2 j hj

/-- C9: `best_window_edit` returns `none` exactly when the needle is empty or
the haystack is shorter than the needle; every returned triple spans exactly
the needle's length and lies within the haystack. -/
theorem C9_span_characterization (h n : List Nat) :
    (best_window_edit h n = none ↔ n = [] ∨ h.length < n.length) ∧
    (∀ s e d, best_window_edit h n = some (s, e, d) →
      e = s + n.length ∧ e ≤ h.length) := by
  by_cases hc : n = [] ∨ h.length < n.length
  · constructor
    · simp [best_window_edit, hc]
    · intro s e d hres
      rw [best_window_edit, if_pos hc] at hres
      exact absurd hres (by simp)
  · have hne : best_window_edit h n ≠ none := by
      rw [best_window_edit, if_neg hc]
      refine bweFold_ne_none h n _ none (Or.inl ?_)
      simp [List.range_eq_nil]
    constructor
    · exact ⟨fun hx => absurd hx hne, fun hx => absurd hx hc⟩
    · intro s e d hres
      rw [best_window_edit, if_neg hc] at hres
      have hl : ∀ i ∈ List.range (h.length - n.length + 1), i + n.length ≤ h.length := by
        intro i hi
        rw [List.mem_range] at hi
        push_neg at hc
        omega
      have H := bweFold_spec h n (List.range (h.length - n.length + 1)) none hl
        (by intro s' e' d' hx; exact absurd hx (by simp)) s e d hres
      obtain ⟨⟨he, hs, _⟩, _, _⟩ := H
      exact ⟨he, by omega⟩

/-- C9 witness: on haystack `ACAGT` and needle `ACGT` the scan returns the
concrete triple `(0, 4, 2)`, whose span has the needle's length and stays
inside the haystack. -/
theorem C9_span_witness :
    best_window_edit [65, 67, 65, 71, 84] [65, 67, 71, 84] = some (0, 4, 2) ∧
    ((4 : Nat) = 0 + 4 ∧ (4 : Nat) ≤ 5) := by
  have hs : best_window_edit [65, 67, 65, 71, 84] [65, 67, 71, 84] = some (0, 4, 2) := by
    decide
  exact ⟨hs, (C9_span_characterization [65, 67, 65, 71, 84] [65, 67, 71, 84]).2 0 4 2 hs⟩

/-- C3 (amended): for a non-empty needle no longer than the haystack,
`best_window_edit` returns a window of exactly the needle's length whose edit
distance is minimal among all windows of that fixed length (not among
substrings of every length — see the counterexample). -/
theorem C3_window_minimum (h n : List Nat) (hne : n ≠ []) (hlen : n.length ≤ h.length) :
    (best_window_edit h n).isSome = true ∧
    ∀ s e d, best_window_edit h n = some (s, e, d) →
      e = s + n.length ∧ d = edit_distance ((h.drop s).take n.length) n ∧
      ∀ i, i + n.length ≤ h.length →
        d ≤ edit_distance ((h.drop i).take n.length) n := by
  have hc : ¬(n = [] ∨ h.length < n.length) := by
    push_neg
    exact ⟨hne, by omega⟩
  constructor
  · rw [best_window_edit, if_neg hc, Option.isSome_iff_ne_none]
    refine bweFold_ne_none h n _ none (Or.inl ?_)
    simp [List.range_eq_nil]
  · intro s e d hres
    rw [best_window_edit, if_neg hc] at hres
    have hl : ∀ i ∈ List.range (h.length - n.length + 1), i + n.length ≤ h.length := by
      intro i hi
      rw [List.mem_range] at hi
      omega
    have H := bweFold_spec h n (List.range (h.length - n.length + 1)) none hl
      (by intro s' e' d' hx; exact absurd hx (by simp)) s e d hres
    refine ⟨H.1.1, H.1.2.2, ?_⟩
    intro i hi
    exact H.2.2 i (by rw [List.mem_range]; omega)

/-- C3 witness: the fixed-length-window minimality instantiated on the
haystack `ACAGT` and needle `ACGT` (the scan returns window `(0, 4)` with
distance 2, which bounds the other window). -/
theorem C3_window_witness :
    (best_window_edit [65, 67, 65, 71, 84] [65, 67, 71, 84]).isSome = true ∧
    (2 : Nat) = edit_distance (([65, 67, 65, 71, 84].drop 0).take 4) [65, 67, 71, 84] ∧
    2 ≤ edit_distance (([65, 67, 65, 71, 84].drop 1).take 4) [65, 67, 71, 84] := by
  have H := C3_window_minimum [65, 67, 65, 71, 84] [65, 67, 71, 84] (by decide) (by decide)
  have H2 := H.2 0 4 2 (by decide)
  exact ⟨H.1, H2.2.1, H2.2.2 1 (by decide)⟩

/-- C3 counterexample: on haystack `ACAGT` with needle `ACGT` the code
returns distance 2 (the best fixed-length window), yet the haystack itself —
a substring of length 5 ≠ 4 — is at edit distance 1 from the needle, so the
returned value is not the minimum over substrings of every length. -/
theorem C3_counterexample :
    best_window_edit [65, 67, 65, 71, 84] [65, 67, 71, 84] = some (0, 4, 2) ∧
    edit_distance [65, 67, 65, 71, 84] [65, 67, 71, 84] = 1 := by
  decide

/-- Number of forward-strand hits carrying a given `(name, kind)` key. -/
def fwdCountP (hits : List Hit) (k : String × SeqKind) : Nat :=
  hits.countP (fun hh => decide (hh.is_rc = false ∧ (hh.name, hh.kind) = k))

/-- Number of reverse-strand hits carrying a given `(name, kind)` key. -/
def revCountP (hits : List Hit) (k : String × SeqKind) : Nat :=
  hits.countP (fun hh => decide (hh.is_rc = true ∧ (hh.name, hh.kind) = k))

/-- Folding `bump` over a key list adds each key's multiplicity. -/
theorem bump_fold_count {α : Type} [DecidableEq α] :
    ∀ (l : List α) (m : α → Nat) (k : α),
      (l.foldl (fun m' k' => bump m' k') m) k = m k + l.count k := by
  intro l
  induction l with
  | nil => intro m k; simp
  | cons a t ih =>
      intro m k
      rw [List.foldl_cons, ih]
      by_cases h : k = a
      · subst h
        simp [bump, List.count_cons]
        omega
      · simp [bump, h, List.count_cons, Ne.symm h]

/-- Count of a key in a de-duplicated list: one if present, zero otherwise. -/
theorem count_dedup {α : Type} [DecidableEq α] (l : List α) (k : α) :
    l.dedup.count k = if k ∈ l then 1 else 0 := by
  by_cases h : k ∈ l
  · rw [if_pos h]
    exact List.count_eq_one_of_mem (List.nodup_dedup l) (List.mem_dedup.mpr h)
  · rw [if_neg h]
    exact List.count_eq_zero_of_not_mem (fun hx => h (List.mem_dedup.mp hx))

/-- The strand fold adds, pointwise, the number of forward hits to the forward
map and the number of reverse hits to the reverse map. -/
theorem strandFold_spec :
    ∀ (hits : List Hit) (f r : String × SeqKind → Nat) (k : String × SeqKind),
      (strandFold hits f r).1 k = f k + fwdCountP hits k ∧
      (strandFold hits f r).2 k = r k + revCountP hits k := by
  intro hits
  induction hits with
  | nil => intro f r k; simp [strandFold, fwdCountP, revCountP]
  | cons hh t ih =>
      intro f r k
      have hstep : strandFold (hh :: t) f r =
          if hh.is_rc then strandFold t f (bump r (hh.name, hh.kind))
          else strandFold t (bump f (hh.name, hh.kind)) r := by
        by_cases hrc : hh.is_rc <;> simp [strandFold, List.foldl_cons, hrc]
      by_cases hrc : hh.is_rc
      · rw [hstep, if_pos hrc]
        have H := ih f (bump r (hh.name, hh.kind)) k
        refine ⟨?_, ?_⟩
        · rw [H.1]
          simp [fwdCountP, List.countP_cons, hrc]
        · rw [H.2]
          simp only [revCountP, List.countP_cons]
          by_cases hk : (hh.name, hh.kind) = k
          · simp [bump, hk.symm, hrc]
            omega
          · have hk' : ¬k = (hh.name, hh.kind) := fun h => hk h.symm
            simp [bump, hrc, hk, hk']
      · rw [hstep, if_neg hrc]
        have H := ih (bump f (hh.name, hh.kind)) r k
        refine ⟨?_, ?_⟩
        · rw [H.1]
          simp only [fwdCountP, List.countP_cons]
          by_cases hk : (hh.name, hh.kind) = k
          · simp [bump, hk.symm, hrc]
            omega
          · have hk' : ¬k = (hh.name, hh.kind) := fun h => hk h.symm
            simp [bump, hrc, hk, hk']
        · rw [H.2]
          simp [revCountP, List.countP_cons, hrc]

/-- C7: the aggregation step for one read performs exactly the described
update — an empty hit list touches only `screened` and `unclassified`; a
non-empty one increments `screened` and `reads_with_hits`, bumps the unit
tally at most once per read per `(name, kind)` key, bumps a strand tally once
per hit, and bumps exactly the one composite context counter keyed by the
position-ordered, first-occurrence-deduplicated names joined with `" + "`. -/
theorem C7_record_update (st : TallyState) (hits : List Hit) :
    (record_read st hits).screened = st.screened + 1 ∧
    (hits = [] →
      (record_read st hits).unclassified = st.unclassified + 1 ∧
      (record_read st hits).reads_with_hits = st.reads_with_hits ∧
      (record_read st hits).unit_tally = st.unit_tally ∧
      (record_read st hits).fwd_tally = st.fwd_tally ∧
      (record_read st hits).rev_tally = st.rev_tally ∧
      (record_read st hits).combo_tally = st.combo_tally) ∧
    (hits ≠ [] →
      (record_read st hits).unclassified = st.unclassified ∧
      (record_read st hits).reads_with_hits = st.reads_with_hits + 1 ∧
      (∀ k, (record_read st hits).unit_tally k =
        st.unit_tally k +
          (if k ∈ hits.map (fun hh => (hh.name, hh.kind)) then 1 else 0)) ∧
      (∀ k, (record_read st hits).fwd_tally k = st.fwd_tally k + fwdCountP hits k) ∧
      (∀ k, (record_read st hits).rev_tally k = st.rev_tally k + revCountP hits k) ∧
      (record_read st hits).combo_tally (context_key hits) =
        st.combo_tally (context_key hits) + 1 ∧
      (∀ c, c ≠ context_key hits →
        (record_read st hits).combo_tally c = st.combo_tally c)) := by
  by_cases hne : hits = []
  · subst hne
    refine ⟨by simp [record_read], fun _ => ?_, fun hx => absurd rfl hx⟩
    simp [record_read]
  · refine ⟨?_, fun hx => absurd hx hne, fun _ => ?_⟩
    · simp [record_read, hne]
    · refine ⟨by simp [record_read, hne], by simp [record_read, hne], ?_, ?_, ?_, ?_, ?_⟩
      · intro k
        have : (record_read st hits).unit_tally =
            ((hits.map (fun hh => (hh.name, hh.kind))).dedup).foldl
              (fun m' k' => bump m' k') st.unit_tally := by
          simp [record_read, hne]
        rw [this, bump_fold_count, count_dedup]
        by_cases hmem : k ∈ hits.map (fun hh => (hh.name, hh.kind)) <;> simp [hmem]
      · intro k
        have : (record_read st hits).fwd_tally =
            (strandFold hits st.fwd_tally st.rev_tally).1 := by
          simp [record_read, hne]
        rw [this, (strandFold_spec hits st.fwd_tally st.rev_tally k).1]
      · intro k
        have : (record_read st hits).rev_tally =
            (strandFold hits st.fwd_tally st.rev_tally).2 := by
          simp [record_read, hne]
        rw [this, (strandFold_spec hits st.fwd_tally st.rev_tally k).2]
      · have : (record_read st hits).combo_tally =
            bump st.combo_tally (context_key hits) := by
          simp [record_read, hne]
        rw [this]
        simp [bump]
      · intro c hc
        have : (record_read st hits).combo_tally =
            bump st.combo_tally (context_key hits) := by
          simp [record_read, hne]
        rw [this]
        simp [bump, hc]

/-- C7 witness: a concrete two-hit read bumps `reads_with_hits` once and the
unit tally of the barcode key once. -/
theorem C7_record_witness :
    ([⟨"NB01", SeqKind.Barcode, false, 7⟩, ⟨"LA_top", SeqKind.AdapterTop, true, 2⟩] :
        List Hit) ≠ [] ∧
    (record_read ⟨0, 0, 0, fun _ => 0, fun _ => 0, fun _ => 0, fun _ => 0⟩
        [⟨"NB01", SeqKind.Barcode, false, 7⟩,
         ⟨"LA_top", SeqKind.AdapterTop, true, 2⟩]).reads_with_hits = 0 + 1 ∧
    (record_read ⟨0, 0, 0, fun _ => 0, fun _ => 0, fun _ => 0, fun _ => 0⟩
        [⟨"NB01", SeqKind.Barcode, false, 7⟩,
         ⟨"LA_top", SeqKind.AdapterTop, true, 2⟩]).unit_tally ("NB01", SeqKind.Barcode) =
      0 + 1 := by
  have hne : ([⟨"NB01", SeqKind.Barcode, false, 7⟩,
      ⟨"LA_top", SeqKind.AdapterTop, true, 2⟩] : List Hit) ≠ [] := by simp
  have H := (C7_record_update
    ⟨0, 0, 0, fun _ => 0, fun _ => 0, fun _ => 0, fun _ => 0⟩
    [⟨"NB01", SeqKind.Barcode, false, 7⟩,
     ⟨"LA_top", SeqKind.AdapterTop, true, 2⟩]).2.2 hne
  refine ⟨hne, H.2.1, ?_⟩
  have hu := H.2.2.1 ("NB01", SeqKind.Barcode)
  rw [hu]
  norm_num

/-- Registration invariant of the `prebuild_for` loop: starting from index
`j`, the three produced vectors have length twice the record count, and the
record at offset `i` occupies pattern slots `2i` (forward, record `j + i`,
strand `false`) and `2i + 1` (reverse complement, record `j + i`, strand
`true`). -/
theorem prebuildGo_spec :
    ∀ (rs : List SequenceRecord) (j : Nat),
      (prebuildGo j rs).1.length = 2 * rs.length ∧
      (prebuildGo j rs).2.1.length = 2 * rs.length ∧
      (prebuildGo j rs).2.2.length = 2 * rs.length ∧
      ∀ i r, rs[i]? = some r →
        (prebuildGo j rs).1[2 * i]? = some r.sequence ∧
        (prebuildGo j rs).1[2 * i + 1]? = some (revcomp_bytes r.sequence) ∧
        (prebuildGo j rs).2.1[2 * i]? = some (j + i) ∧
        (prebuildGo j rs).2.1[2 * i + 1]? = some (j + i) ∧
        (prebuildGo j rs).2.2[2 * i]? = some false ∧
        (prebuildGo j rs).2.2[2 * i + 1]? = some true := by
  intro rs
  induction rs with
  | nil =>
      intro j
      refine ⟨rfl, rfl, rfl, ?_⟩
      intro i r hi
      exact absurd hi (by simp)
  | cons r0 t ih =>
      intro j
      have H := ih (j + 1)
      have hunf : prebuildGo j (r0 :: t) =
          (r0.sequence :: revcomp_bytes r0.sequence :: (prebuildGo (j + 1) t).1,
           j :: j :: (prebuildGo (j + 1) t).2.1,
           false :: true :: (prebuildGo (j + 1) t).2.2) := rfl
      rw [hunf]
      refine ⟨?_, ?_, ?_, ?_⟩
      · simp only [List.length_cons, H.1, List.length_cons]
        omega
      · simp only [List.length_cons, H.2.1, List.length_cons]
        omega
      · simp only [List.length_cons, H.2.2.1, List.length_cons]
        omega
      · intro i r hi
        match i with
        | 0 =>
            simp only [List.getElem?_cons_zero] at hi
            injection hi with hr
            subst hr
            refine ⟨?_, ?_, ?_, ?_, ?_, ?_⟩ <;> simp
        | i' + 1 =>
            simp only [List.getElem?_cons_succ] at hi
            have H2 := H.2.2.2 i' r hi
            have e1 : 2 * (i' + 1) = 2 * i' + 1 + 1 := by ring
            have e3 : j + (i' + 1) = j + 1 + i' := by ring
            rw [e1, e3]
            simp only [List.getElem?_cons_succ]
            exact ⟨H2.1, H2.2.1, H2.2.2.1, H2.2.2.2.1, H2.2.2.2.2.1, H2.2.2.2.2.2⟩

/-- C8: the built pattern index registers exactly two pattern ids per motif —
the literal sequence at slot `2i` with strand flag `false` and its reverse
complement at slot `2i + 1` with strand flag `true`, both mapping back to
record `i` via `pat2rec` — and `pats`, `pat2rec`, `pat_is_rc` all have length
twice the record count. -/
theorem C8_pattern_registration (records : List SequenceRecord) :
    (prebuild_for records).pats.length = 2 * records.length ∧
    (prebuild_for records).pat2rec.length = 2 * records.length ∧
    (prebuild_for records).pat_is_rc.length = 2 * records.length ∧
    ∀ i r, records[i]? = some r →
      (prebuild_for records).pats[2 * i]? = some r.sequence ∧
      (prebuild_for records).pats[2 * i + 1]? = some (revcomp_bytes r.sequence) ∧
      (prebuild_for records).pat2rec[2 * i]? = some i ∧
      (prebuild_for records).pat2rec[2 * i + 1]? = some i ∧
      (prebuild_for records).pat_is_rc[2 * i]? = some false ∧
      (prebuild_for records).pat_is_rc[2 * i + 1]? = some true := by
  have H := prebuildGo_spec records 0
  refine ⟨H.1, H.2.1, H.2.2.1, ?_⟩
  intro i r hi
  have H2 := H.2.2.2 i r hi
  simpa using H2

/-- C8 witness: a single-motif index has the forward pattern at slot 0 and
the reverse complement, flagged as reverse strand, at slot 1. -/
theorem C8_registration_witness :
    ([⟨"ADPT", SeqKind.AdapterTop, [65, 67, 71, 84]⟩] :
        List SequenceRecord)[0]? = some ⟨"ADPT", SeqKind.AdapterTop, [65, 67, 71, 84]⟩ ∧
    (prebuild_for [⟨"ADPT", SeqKind.AdapterTop, [65, 67, 71, 84]⟩]).pats[0]? =
      some [65, 67, 71, 84] ∧
    (prebuild_for [⟨"ADPT", SeqKind.AdapterTop, [65, 67, 71, 84]⟩]).pat_is_rc[1]? =
      some true := by
  have hi : ([⟨"ADPT", SeqKind.AdapterTop, [65, 67, 71, 84]⟩] :
      List SequenceRecord)[0]? = some ⟨"ADPT", SeqKind.AdapterTop, [65, 67, 71, 84]⟩ := rfl
  have H := (C8_pattern_registration [⟨"ADPT", SeqKind.AdapterTop, [65, 67, 71, 84]⟩]).2.2.2
    0 ⟨"ADPT", SeqKind.AdapterTop, [65, 67, 71, 84]⟩ hi
  exact ⟨hi, H.1, H.2.2.2.2.2⟩

/-- Sum of a list after dividing every element by the same value. -/
theorem list_sum_map_div (L : List ℝ) (z : ℝ) :
    (L.map (fun e => e / z)).sum = L.sum / z := by
  induction L with
  | nil => simp
  | cons a t ih => simp [ih, add_div]

/-- A running-maximum fold never drops below its seed. -/
theorem foldl_max_init_le (l : List ℝ) : ∀ a : ℝ, a ≤ l.foldl max a := by
  induction l with
  | nil => intro a; simp
  | cons x t ih =>
      intro a
      rw [List.foldl_cons]
      exact le_trans (le_max_left a x) (ih (max a x))

/-- A running-maximum fold dominates every list element. -/
theorem foldl_max_mem_le (l : List ℝ) : ∀ (a x : ℝ), x ∈ l → x ≤ l.foldl max a := by
  induction l with
  | nil => intro a x hx; simp at hx
  | cons y t ih =>
      intro a x hx
      rw [List.foldl_cons]
      rcases List.mem_cons.mp hx with h | h
      · subst h
        exact le_trans (le_max_right a x) (foldl_max_init_le t (max a x))
      · exact ih (max a y) x h

/-- A running-maximum fold returns its seed or some list element. -/
theorem foldl_max_attained (l : List ℝ) : ∀ a : ℝ, l.foldl max a = a ∨ l.foldl max a ∈ l := by
  induction l with
  | nil => intro a; left; rfl
  | cons x t ih =>
      intro a
      rw [List.foldl_cons]
      rcases ih (max a x) with h | h
      · rw [h]
        rcases max_cases a x with ⟨h1, _⟩ | ⟨h1, _⟩
        · left; exact h1
        · right; rw [h1]; exact List.mem_cons_self _ _
      · right; exact List.mem_cons_of_mem _ h

/-- Softmax output of `infer_kits_df` sums to 1 for any non-empty score list:
the maximum score is attained, so the exponential sum is at least `exp 0 = 1`,
the `1e-12` floor is inactive, and the division normalises exactly. -/
theorem softmax_probs_sum_one (scores : List ℝ) (hne : scores ≠ []) :
    (softmax_probs scores).sum = 1 := by
  rcases scores with _ | ⟨s, t⟩
  · exact absurd rfl hne
  · set M := (s :: t).foldl max ((s :: t).headD 0) with hMdef
    have hM' : M = t.foldl max s := by
      rw [hMdef]
      simp [List.foldl_cons]
    have hmemM : M ∈ s :: t := by
      rcases foldl_max_attained t s with h | h
      · rw [hM', h]
        exact List.mem_cons_self _ _
      · rw [hM']
        exact List.mem_cons_of_mem _ h
    have hone : (1 : ℝ) ∈ (s :: t).map (fun x => Real.exp (x - M)) :=
      List.mem_map.mpr ⟨M, hmemM, by simp⟩
    have hpos : ∀ x ∈ (s :: t).map (fun x => Real.exp (x - M)), (0 : ℝ) ≤ x := by
      intro x hx
      obtain ⟨y, _, rfl⟩ := List.mem_map.mp hx
      exact (Real.exp_pos _).le
    have hsum_ge : (1 : ℝ) ≤ ((s :: t).map (fun x => Real.exp (x - M))).sum :=
      List.single_le_sum hpos 1 hone
    have hz : max (((s :: t).map (fun x => Real.exp (x - M))).sum) ((1 : ℝ) / 10 ^ 12) =
        ((s :: t).map (fun x => Real.exp (x - M))).sum :=
      max_eq_left (le_trans (by norm_num) hsum_ge)
    calc (softmax_probs (s :: t)).sum
        = (((s :: t).map (fun x => Real.exp (x - M))).map
            (fun e => e / max (((s :: t).map (fun x => Real.exp (x - M))).sum)
              ((1 : ℝ) / 10 ^ 12))).sum := rfl
      _ = ((s :: t).map (fun x => Real.exp (x - M))).sum /
            ((s :: t).map (fun x => Real.exp (x - M))).sum := by
          rw [hz, list_sum_map_div]
      _ = 1 := div_self (ne_of_gt (lt_of_lt_of_le zero_lt_one hsum_ge))

/-- C6 (amended): for every tally snapshot and non-empty kit list, the
probabilities produced by the softmax of `infer_kits_df` sum to 1 over ALL
kits (the softmax normalises over every kit, zero-score kits included —
restricting the sum to kits with non-zero score falls short, see the
counterexample). -/
theorem C6_kit_probs_sum_one (kits : List Kit)
    (tally : List ((String × SeqKind) × Nat)) (hne : kits ≠ []) :
    (infer_kit_probs kits tally).sum = 1 := by
  apply softmax_probs_sum_one
  simp [infer_kit_probs, hne]

/-- C6 witness: the softmax normalisation instantiated on a one-kit registry
and an empty tally. -/
theorem C6_kit_probs_witness :
    ([⟨"K0", [], []⟩] : List Kit) ≠ [] ∧
    (infer_kit_probs [⟨"K0", [], []⟩] []).sum = 1 := by
  exact ⟨by simp, C6_kit_probs_sum_one [⟨"K0", [], []⟩] [] (by simp)⟩

/-- C6 counterexample: with one kit matching the tally (score 2) and one kit
matching nothing (score 0), the probability mass restricted to kits with
non-zero score is `1 / (1 + exp (-2))` < 9/10 — far from 1, because the
softmax also assigns positive probability to the zero-score kit. -/
theorem C6_counterexample :
    nonzeroScoreProbSum
      [⟨"K1", [⟨"RTP", SeqKind.Primer, []⟩], []⟩, ⟨"K2", [], []⟩]
      [(("RTP", SeqKind.Primer), 1)] < 9 / 10 := by
  have hs1 : kit_score ⟨"K1", [⟨"RTP", SeqKind.Primer, []⟩], []⟩
      [(("RTP", SeqKind.Primer), 1)] = 2 := by
    simp [kit_score, buildSig, weight_of]
  have hs2 : kit_score ⟨"K2", [], []⟩ [(("RTP", SeqKind.Primer), 1)] = 0 := by
    simp [kit_score, buildSig]
  have hexp2 : Real.exp 2 < 9 := by
    have h2 : Real.exp 2 = Real.exp 1 * Real.exp 1 := by
      rw [← Real.exp_add]; norm_num
    nlinarith [Real.exp_one_lt_d9, Real.exp_pos 1]
  have hexppos : (0 : ℝ) < Real.exp (-2) := Real.exp_pos _
  have hmain : nonzeroScoreProbSum
      [⟨"K1", [⟨"RTP", SeqKind.Primer, []⟩], []⟩, ⟨"K2", [], []⟩]
      [(("RTP", SeqKind.Primer), 1)] = 1 / (1 + Real.exp (-2)) := by
    have hzval : max ((1 : ℝ) + (Real.exp (-2) + 0)) ((1 : ℝ) / 10 ^ 12) =
        1 + (Real.exp (-2) + 0) := by
      apply max_eq_left
      nlinarith
    simp [nonzeroScoreProbSum, infer_kit_probs, softmax_probs, hs1, hs2, hzval]
    nlinarith
  rw [hmain]
  have hmul : Real.exp (-2) * Real.exp 2 = 1 := by
    rw [← Real.exp_add]
    norm_num
  rw [div_lt_div_iff₀ (by positivity) (by norm_num)]
  nlinarith [hmul, hexp2, hexppos, Real.exp_pos 2]

end Porkchop
